import Mathlib

/-
Verification of the heap allocator in src/allocation/main.cpp.

The allocator is embedded shallowly:
- machine words (size_t, uintptr_t) are 64 bits; arithmetic that the C++
  source performs in size_t is modelled on Nat with an explicit % 2^64;
  the cast to int in canSplit and getBucket is modelled by toInt32;
- the heap is a finite association list from block addresses to block
  headers; the intrusive next pointers are Option Nat addresses;
- the global allocator state (heapStart, top, searchStart, free_list,
  segregatedLists, segregatedTops, searchMode) becomes a Heap record,
  together with the current program break (brk) and an osLimit field that
  models the point at which sbrk refuses to grow;
- loops over the linked chain take a fuel argument;
- a result of none models undefined behaviour of the C++ source (a null
  or dangling pointer dereference, an out-of-bounds array index) or a
  scan that never terminates (no fuel suffices).
-/

namespace Alloc

/-- Size of a machine word (sizeof(word_t) on a 64-bit target). -/
def wordSize : Nat := 8

/-- Modulus of size_t arithmetic on the 64-bit target. -/
def W : Nat := 2 ^ 64

/-- Value of sizeof(Block): size_t size + padded bool used + Block *next
+ one word of payload (word_t data[1]). -/
def sizeofBlock : Nat := 32

/-- Byte offset of the data field inside Block, that is
sizeof(Block) - sizeof(data). -/
def dataOffset : Nat := 24

/-- Source align: (x + sizeof(word_t) - 1) & ~(sizeof(word_t) - 1),
computed in size_t arithmetic (so it wraps at 2^64). -/
def align (x : Nat) : Nat := ((x + wordSize - 1) % W) / wordSize * wordSize

/-- Source allocSize: sizeof(Block) + size - sizeof(declval Block data),
that is size + 24, in size_t arithmetic. -/
def allocSize (size : Nat) : Nat := (size + (sizeofBlock - wordSize)) % W

/-- Wrapping size_t subtraction a - b. -/
def sub64 (a b : Nat) : Nat := (a % W + (W - b % W)) % W

/-- Conversion of an unsigned value to a 32-bit signed int, as the
(int) casts in the source do on the target ABI. -/
def toInt32 (n : Nat) : Int :=
  if n % 2 ^ 32 < 2 ^ 31 then ((n % 2 ^ 32 : Nat) : Int)
  else ((n % 2 ^ 32 : Nat) : Int) - 2 ^ 32

/-- Source canSplit: (int)(allocSize(block->size) - size) >= (int)sizeof(Block).
The block argument is passed as its size field, the only field read. -/
def canSplit (blockSize size : Nat) : Bool :=
  decide ((sizeofBlock : Int) ≤ toInt32 (sub64 (allocSize blockSize) size))

/-- Modelled from the spec words for claim C4 only (the source has no such
function): the bytes remaining in the block after carving out the
requested size must be at least large enough to host a new block header
with a zero-length payload, that is blockSize - size >= allocSize 0.
Equivalently, the remainder size computed by split does not underflow. -/
def canSplitSpec (blockSize size : Nat) : Bool :=
  decide (size + allocSize 0 ≤ blockSize)

/-- Source getBucket: size / sizeof(word_t) - 1, computed in size_t and
converted to the int return type. -/
def getBucket (size : Nat) : Int :=
  toInt32 ((size / wordSize + (W - 1)) % W)

/-- Valid index into the five-entry segregated tables, if any. The source
performs no such check; an out-of-range bucket makes the table reads and
writes in segregatedFit and alloc undefined behaviour, which the model
surfaces as none at those access points. -/
def bucketOf (size : Nat) : Option Nat :=
  let b := getBucket size
  if 0 ≤ b ∧ b < 5 then some b.toNat else none

/-- Source getHeader: (Block *)((char *)data + sizeof(data) - sizeof(Block)). -/
def getHeader (data : Nat) : Nat := data - dataOffset

/-- Block header: size, used flag and intrusive next pointer. -/
structure Block where
  size : Nat
  used : Bool
  next : Option Nat
deriving DecidableEq, Repr

/-- The five search modes of the source. -/
inductive SearchMode where
  | FirstFit
  | NextFit
  | BestFit
  | FreeList
  | SegregatedList
deriving DecidableEq, Repr

/-- The global allocator state of the source, plus the backing-store
model (brk and osLimit: sbrk succeeds while the break stays at or below
osLimit). -/
structure Heap where
  mem : List (Nat × Block)
  heapStart : Option Nat
  top : Option Nat
  searchStart : Option Nat
  free_list : List Nat
  segregatedLists : List (Option Nat)
  segregatedTops : List (Option Nat)
  searchMode : SearchMode
  brk : Nat
  osLimit : Nat
deriving DecidableEq, Repr

/-- Read the block header at an address; none models a dangling pointer. -/
def lookup (m : List (Nat × Block)) (a : Nat) : Option Block :=
  match m with
  | [] => none
  | (k, b) :: rest => if k = a then some b else lookup rest a

/-- Write the block header at an address (a fresh address is added). -/
def update (m : List (Nat × Block)) (a : Nat) (b : Block) : List (Nat × Block) :=
  match m with
  | [] => [(a, b)]
  | (k, v) :: rest => if k = a then (a, b) :: rest else (k, v) :: update rest a b

/-- Addresses visited by following next pointers from a start address.
none when the walk dereferences a dangling address or runs out of fuel. -/
def chain (m : List (Nat × Block)) : Option Nat → Nat → Option (List Nat)
  | none, _ => some []
  | some _, 0 => none
  | some a, fuel + 1 =>
    (lookup m a).bind (fun blk => (chain m blk.next fuel).map (fun l => a :: l))

/-- Blocks visited by following next pointers, with their addresses;
this is what the source visit function passes to its callback. -/
def chainBlocks (m : List (Nat × Block)) : Option Nat → Nat → Option (List (Nat × Block))
  | none, _ => some []
  | some _, 0 => none
  | some a, fuel + 1 =>
    match lookup m a with
    | none => none
    | some blk => (chainBlocks m blk.next fuel).map (fun l => (a, blk) :: l)

/-- Source requestFromOS: sbrk(0) yields the current break as the new
block address, sbrk(allocSize(size)) bumps it; the OS refuses (sbrk
returns (void *)-1 and the function returns nullptr) once the break
would pass osLimit. -/
def requestFromOS (h : Heap) (size : Nat) : Option (Heap × Nat) :=
  if h.brk + allocSize size ≤ h.osLimit then
    some ({ h with brk := h.brk + allocSize size }, h.brk)
  else none

/-- Source split: carve the requested size out of the block at address B,
writing a free remainder header at B + allocSize(size), relinking, and in
FreeList mode pushing the block (the allocated part, exactly as the
source does) onto free_list. -/
def split (h : Heap) (B size : Nat) : Option Heap :=
  match lookup h.mem B with
  | none => none
  | some blk =>
    let fAddr := B + allocSize size
    let m1 := update h.mem fAddr
      { size := sub64 blk.size (allocSize size), used := false, next := blk.next }
    let m2 := update m1 B { blk with size := size, next := some fAddr }
    let h1 := { h with mem := m2 }
    if h.searchMode = SearchMode.FreeList then
      some { h1 with free_list := h1.free_list ++ [B] }
    else some h1

/-- Source listAllocate: split when allowed and possible, then mark the
block used and set its size to the requested size; returns the block. -/
def listAllocate (h : Heap) (B size : Nat) : Option (Heap × Nat) :=
  match lookup h.mem B with
  | none => none
  | some blk =>
    let h1opt :=
      if h.searchMode ≠ SearchMode.SegregatedList ∧ canSplit blk.size size = true
      then split h B size else some h
    match h1opt with
    | none => none
    | some h1 =>
      match lookup h1.mem B with
      | none => none
      | some blk1 =>
        some ({ h1 with mem := update h1.mem B { blk1 with size := size, used := true } }, B)

/-- Scan loop of the source firstFit: first block that is unused and at
least the requested size. some none = loop fell off the chain end. -/
def ffSearch (m : List (Nat × Block)) : Option Nat → Nat → Nat → Option (Option Nat)
  | none, _, _ => some none
  | some _, _, 0 => none
  | some a, size, fuel + 1 =>
    match lookup m a with
    | none => none
    | some blk =>
      if blk.used || blk.size < size then ffSearch m blk.next size fuel
      else some (some a)

/-- Completion of a strategy once its scan has produced a result: a
found block goes through listAllocate, a completed miss returns the heap
unchanged with no block. Shared by the first-fit and best-fit wrappers. -/
def fitFinish (h : Heap) (size : Nat) : Option (Option Nat) → Option (Heap × Option Nat)
  | none => none
  | some none => some (h, none)
  | some (some a) => (listAllocate h a size).map (fun p => (p.1, some p.2))

/-- Source firstFit. -/
def firstFit (h : Heap) (size fuel : Nat) : Option (Heap × Option Nat) :=
  fitFinish h size (ffSearch h.mem h.heapStart size fuel)

/-- Scan loop of the source nextFit: advance from the cursor, wrap to
heapStart after the chain end, stop with a miss after a full circle. -/
def nfSearch (m : List (Nat × Block)) (hs start : Option Nat) :
    Option Nat → Nat → Nat → Option (Option Nat)
  | none, _, _ => some none
  | some _, _, 0 => none
  | some a, size, fuel + 1 =>
    match lookup m a with
    | none => none
    | some blk =>
      if blk.used || blk.size < size then
        let nxt := match blk.next with | none => hs | some n => some n
        if nxt = start then some none
        else nfSearch m hs start nxt size fuel
      else some (some a)

/-- Completion of nextFit: on a found block the cursor moves to it
before listAllocate runs; on a completed miss the heap (with the cursor
assignment made at entry) is returned unchanged. -/
def nextFitFinish (h0 : Heap) (size : Nat) : Option (Option Nat) → Option (Heap × Option Nat)
  | none => none
  | some none => some (h0, none)
  | some (some a) =>
    (listAllocate { h0 with searchStart := some a } a size).map (fun p => (p.1, some p.2))

/-- Source nextFit: an unset cursor is first replaced by heapStart (this
assignment persists), the found block becomes the new cursor. -/
def nextFit (h : Heap) (size fuel : Nat) : Option (Heap × Option Nat) :=
  let ss := if h.searchStart = none then h.heapStart else h.searchStart
  let h0 := { h with searchStart := ss }
  nextFitFinish h0 size (nfSearch h0.mem h0.heapStart ss ss size fuel)

/-- Scan loop of the source bestFit, kept faithful to the source: when
the current block is free and fits but is not strictly smaller than the
stored best, neither branch of the loop body advances the cursor, so the
recursion repeats the same state on smaller fuel. -/
def bfLoop (m : List (Nat × Block)) : Option Nat → Option Nat → Nat → Nat → Option (Option Nat)
  | none, best, _, _ => some best
  | some _, _, _, 0 => none
  | some a, best, size, fuel + 1 =>
    match lookup m a with
    | none => none
    | some blk =>
      if blk.used || blk.size < size then bfLoop m blk.next best size fuel
      else
        match best with
        | none => bfLoop m blk.next (some a) size fuel
        | some b =>
          match lookup m b with
          | none => none
          | some blkb =>
            if blk.size < blkb.size then bfLoop m blk.next (some a) size fuel
            else bfLoop m (some a) best size fuel

/-- Source bestFit. -/
def bestFit (h : Heap) (size fuel : Nat) : Option (Heap × Option Nat) :=
  fitFinish h size (bfLoop h.mem h.heapStart none size fuel)

/-- Find loop of the source freeList strategy: first free_list entry
whose block size is at least the requested size (only the size field is
consulted, exactly as in the source). -/
def flFind (m : List (Nat × Block)) : List Nat → Nat → Option (Option Nat)
  | [], _ => some none
  | a :: rest, size =>
    match lookup m a with
    | none => none
    | some blk => if size ≤ blk.size then some (some a) else flFind m rest size

/-- Completion of the freeList strategy: the found block is removed from
free_list (std list remove erases every equal element) before
listAllocate runs. -/
def freeListFinish (h : Heap) (size : Nat) : Option (Option Nat) → Option (Heap × Option Nat)
  | none => none
  | some none => some (h, none)
  | some (some a) =>
    (listAllocate { h with free_list := h.free_list.filter (fun x => x != a) } a size).map
      (fun p => (p.1, some p.2))

/-- Source freeList strategy. -/
def freeList (h : Heap) (size _fuel : Nat) : Option (Heap × Option Nat) :=
  freeListFinish h size (flFind h.mem h.free_list size)

/-- Source segregatedFit: redirect heapStart to the chain of the bucket
selected by getBucket, run firstFit there, then restore heapStart. The
unchecked segregatedLists[bucket] read is undefined behaviour when the
bucket index is outside the five-entry table. -/
def segregatedFitGo (h : Heap) (size fuel : Nat) : Option Nat → Option (Heap × Option Nat)
  | none => none
  | some bkt =>
    (firstFit { h with heapStart := h.segregatedLists.getD bkt none } size fuel).map
      (fun p => ({ p.1 with heapStart := h.heapStart }, p.2))

/-- Source segregatedFit, dispatcher part: the unchecked table read is
the bucketOf validity test. -/
def segregatedFit (h : Heap) (size fuel : Nat) : Option (Heap × Option Nat) :=
  segregatedFitGo h size fuel (bucketOf size)

/-- Source findBlock: dispatch on the search mode. -/
def findBlock (h : Heap) (size fuel : Nat) : Option (Heap × Option Nat) :=
  match h.searchMode with
  | SearchMode.FirstFit => firstFit h size fuel
  | SearchMode.NextFit => nextFit h size fuel
  | SearchMode.BestFit => bestFit h size fuel
  | SearchMode.FreeList => freeList h size fuel
  | SearchMode.SegregatedList => segregatedFit h size fuel

/-- Segregated growth, last step: write top->next = block through the
read bucket-top header (second argument), then make the fresh block the
bucket top. -/
def allocGrowSegLink (h4 : Heap) (B bkt t : Nat) : Option Block → Option (Heap × Nat)
  | none => none
  | some tb =>
    let h5 := { h4 with mem := update h4.mem t { tb with next := some B } }
    some ({ h5 with segregatedTops := h5.segregatedTops.set bkt (some B) }, B + dataOffset)

/-- Segregated growth: chain the fresh block behind the bucket top when
one exists (segregatedTops[bucket], the third argument). -/
def allocGrowSegTop (h4 : Heap) (B bkt : Nat) : Option Nat → Option (Heap × Nat)
  | some t => allocGrowSegLink h4 B bkt t (lookup h4.mem t)
  | none => some ({ h4 with segregatedTops := h4.segregatedTops.set bkt (some B) }, B + dataOffset)

/-- Segregated growth: initialise segregatedLists[bucket] when empty,
then chain behind the bucket top. none for an out-of-table bucket, where
the source performs its unchecked index. -/
def allocGrowSeg (h3 : Heap) (B : Nat) : Option Nat → Option (Heap × Nat)
  | none => none
  | some bkt =>
    let h4 := if h3.segregatedLists.getD bkt none = none
              then { h3 with segregatedLists := h3.segregatedLists.set bkt (some B) }
              else h3
    allocGrowSegTop h4 B bkt (h4.segregatedTops.getD bkt none)

/-- Main-chain growth, last step: write top->next = block through the
read top header, then move top to the fresh block. -/
def allocGrowMainLink (h4 : Heap) (B t : Nat) : Option Block → Option (Heap × Nat)
  | none => none
  | some tb =>
    let h5 := { h4 with mem := update h4.mem t { tb with next := some B } }
    some ({ h5 with top := some B }, B + dataOffset)

/-- Main-chain growth: chain the fresh block behind top when one exists
(the third argument is the current top). -/
def allocGrowMainTop (h4 : Heap) (B : Nat) : Option Nat → Option (Heap × Nat)
  | some t => allocGrowMainLink h4 B t (lookup h4.mem t)
  | none => some ({ h4 with top := some B }, B + dataOffset)

/-- Main-chain growth: initialise heapStart when unset, then chain
behind top. -/
def allocGrowMain (h3 : Heap) (B : Nat) : Option (Heap × Nat) :=
  let h4 := if h3.heapStart = none then { h3 with heapStart := some B } else h3
  allocGrowMainTop h4 B h4.top

/-- Growth path of the source alloc once requestFromOS has answered (the
second argument): write size and used through the returned block pointer
(undefined behaviour, none, when the OS refused and it is null), then
chain the block into the bucket or the main chain. -/
def allocGrowGo (s : Nat) : Option (Heap × Nat) → Option (Heap × Nat)
  | none => none
  | some (h2, B) =>
    let h3 := { h2 with mem := update h2.mem B { size := s, used := true, next := none } }
    if h3.searchMode = SearchMode.SegregatedList then allocGrowSeg h3 B (bucketOf s)
    else allocGrowMain h3 B

/-- Growth path of the source alloc, taken when findBlock misses. The
source does not test requestFromOS for nullptr before writing
block->size through it, so the refused-growth path is undefined
behaviour (none), not an error return. The fresh block header is written
with next unset (sbrk memory is zero-filled), then chained into either
the main chain or the segregated bucket selected by getBucket, again
with an unchecked table index. -/
def allocGrow (h1 : Heap) (s : Nat) : Option (Heap × Nat) :=
  allocGrowGo s (requestFromOS h1 s)

/-- Completion of alloc on the result of findBlock: a found block turns
into its payload handle block->data, a completed miss goes to the
growth path. -/
def allocFinish (s : Nat) : Option (Heap × Option Nat) → Option (Heap × Nat)
  | none => none
  | some (h1, some a) => some (h1, a + dataOffset)
  | some (h1, none) => allocGrow h1 s

/-- Source alloc: align the request, dispatch the search, return the
payload handle block->data of the found block, or grow the backing
store on a miss. -/
def alloc (h : Heap) (size fuel : Nat) : Option (Heap × Nat) :=
  allocFinish (align size) (findBlock h (align size) fuel)

/-- Source canCoalesce: block->next && !block->next->used; the block
argument is the already-read header of the freed block. -/
def canCoalesce (m : List (Nat × Block)) (blk : Block) : Option Bool :=
  match blk.next with
  | none => some false
  | some n => (lookup m n).map (fun nb => !nb.used)

/-- Source coalesce: absorb the next block when it is unused; when the
absorbed block was top, top moves back to the surviving block. The size
addition is size_t arithmetic. -/
def coalesce (h : Heap) (B : Nat) : Option Heap :=
  match lookup h.mem B with
  | none => none
  | some blk =>
    match blk.next with
    | none => none
    | some n =>
      match lookup h.mem n with
      | none => none
      | some nb =>
        if nb.used then some h
        else
          some { h with
            top := if h.top = some n then some B else h.top,
            mem := update h.mem B
              { blk with size := (blk.size + nb.size) % W, next := nb.next } }

/-- Source free: resolve the header, coalesce with the successor in
every mode except segregated, mark unused, and in FreeList mode push the
block onto free_list. -/
def free (h : Heap) (data : Nat) : Option Heap :=
  let B := getHeader data
  match lookup h.mem B with
  | none => none
  | some blk0 =>
    let step1 :=
      if h.searchMode = SearchMode.SegregatedList then some h
      else
        match canCoalesce h.mem blk0 with
        | none => none
        | some true => coalesce h B
        | some false => some h
    match step1 with
    | none => none
    | some h1 =>
      match lookup h1.mem B with
      | none => none
      | some blk1 =>
        let h2 := { h1 with mem := update h1.mem B { blk1 with used := false } }
        if h2.searchMode = SearchMode.FreeList then
          some { h2 with free_list := h2.free_list ++ [B] }
        else some h2

/-- Source visit: walk the main chain, yielding each block to the
callback; modelled as the collected list of visited blocks. -/
def visit (h : Heap) (fuel : Nat) : Option (List (Nat × Block)) :=
  chainBlocks h.mem h.heapStart fuel

/-- Iteration of the source segregatedTraverse over the bucket heads:
each round saves heapStart, redirects it to the bucket, visits, and
restores the saved value. -/
def segTravGo : Heap → List (Option Nat) → Nat → Option (Heap × List (Nat × Block))
  | h, [], _ => some (h, [])
  | h, b :: rest, fuel =>
    let original := h.heapStart
    let h1 := { h with heapStart := b }
    match visit h1 fuel with
    | none => none
    | some out =>
      let h2 := { h1 with heapStart := original }
      match segTravGo h2 rest fuel with
      | none => none
      | some (h3, out2) => some (h3, out ++ out2)

/-- Source segregatedTraverse. -/
def segregatedTraverse (h : Heap) (fuel : Nat) : Option (Heap × List (Nat × Block)) :=
  segTravGo h h.segregatedLists fuel

/-- Fresh allocator state after init(mode), with a generous backing
store. -/
def initHeap (mode : SearchMode) : Heap :=
  { mem := [], heapStart := none, top := none, searchStart := none,
    free_list := [], segregatedLists := [none, none, none, none, none],
    segregatedTops := [none, none, none, none, none],
    searchMode := mode, brk := 0, osLimit := 10000 }

/-- Fresh segregated-mode state, for exercising the bucket-table defect. -/
def heapC1 : Heap := initHeap SearchMode.SegregatedList

/-- Fresh first-fit state whose backing store refuses every growth
request (sbrk always fails). -/
def heapC2 : Heap := { initHeap SearchMode.FirstFit with osLimit := 0 }

/-- Trace for the explicit-free-list defect: allocate 64 bytes, free
them, then allocate 8 bytes out of the freed block, which splits it. -/
def traceC3 : Option Heap := do
  let (h1, p1) ← alloc (initHeap SearchMode.FreeList) 64 20
  let h2 ← free h1 p1
  let (h3, _) ← alloc h2 8 20
  pure h3

/-- One free block of payload size 24 at address 0. -/
def heapC4 : Heap :=
  { initHeap SearchMode.FirstFit with
    mem := [(0, { size := 24, used := false, next := none })],
    heapStart := some 0, top := some 0 }

/-- Best-fit state with two free fitting blocks of equal size 16. -/
def heapC5 : Heap :=
  { initHeap SearchMode.BestFit with
    mem := [(0, { size := 16, used := false, next := some 100 }),
            (100, { size := 16, used := false, next := none })],
    heapStart := some 0, top := some 100 }

/-- First-fit state with a used block at 0 whose chain successor at 32
is free; freeing the block at 0 must coalesce the two. -/
def heapC6 : Heap :=
  { initHeap SearchMode.FirstFit with
    mem := [(0, { size := 8, used := true, next := some 32 }),
            (32, { size := 8, used := false, next := none })],
    heapStart := some 0, top := some 32 }

/-- Fresh first-fit state for exercising a successful alloc. -/
def heapC7 : Heap := initHeap SearchMode.FirstFit

/-- Next-fit state with a single free block of size 32 at address 0. -/
def heapC8 : Heap :=
  { initHeap SearchMode.NextFit with
    mem := [(0, { size := 32, used := false, next := none })],
    heapStart := some 0, top := some 0 }

/-- Segregated-mode state with a distinguishable main-chain head. -/
def heapC10 : Heap :=
  { initHeap SearchMode.SegregatedList with heapStart := some 7 }

/-- All allocator-state components except mem and free_list agree; what
split and listAllocate leave untouched. -/
def framesEq (h h' : Heap) : Prop :=
  h'.heapStart = h.heapStart ∧ h'.top = h.top ∧ h'.searchStart = h.searchStart ∧
  h'.brk = h.brk ∧ h'.osLimit = h.osLimit ∧ h'.searchMode = h.searchMode ∧
  h'.segregatedLists = h.segregatedLists ∧ h'.segregatedTops = h.segregatedTops

/-- Claim C1 (code defect): getBucket is size / wordSize - 1, which maps
the five size classes 8, 16, 32, 64, 128 to 0, 1, 3, 7, 15 rather than
0..4; classes 64 and 128 therefore index past the five-entry bucket
table, and a segregated-mode alloc of 64 bytes hits that unchecked index
(undefined behaviour, modelled as none) instead of returning an explicit
UnsupportedSizeClass error. -/
theorem getBucket_table_defect :
    getBucket 8 = 0 ∧ getBucket 16 = 1 ∧ getBucket 32 = 3 ∧
    getBucket 64 = 7 ∧ getBucket 128 = 15 ∧
    bucketOf 64 = none ∧ bucketOf 128 = none ∧
    (∀ fuel, alloc heapC1 64 fuel = none) :=
  ⟨by decide, by decide, by decide, by decide, by decide, by decide,
   by decide, fun _ => rfl⟩

/-- Claim C2 (code defect): when the backing store refuses to grow,
requestFromOS yields its failure value, but alloc dereferences that
failed result (block->size = size on a null block), so the refused
growth is a crash (undefined behaviour, modelled as none), not an
OutOfMemory return. -/
theorem alloc_oom_crash :
    ∀ fuel, requestFromOS heapC2 (align 8) = none ∧ alloc heapC2 8 fuel = none := by
  intro fuel
  cases fuel with
  | zero => exact ⟨rfl, rfl⟩
  | succ f => exact ⟨rfl, rfl⟩

/-- Claim C3 (code defect): in explicit-free-list mode, split pushes the
allocated front part of the block onto free_list, not the free
remainder. After alloc 64, free, alloc 8, the free list holds exactly
the address 0 of the block just marked used, while the actual free
remainder at address 32 is absent, violating the all-free invariant of
the list. -/
theorem split_freelist_defect :
    ∃ hf, traceC3 = some hf ∧ hf.free_list = [0] ∧
      lookup hf.mem 0 = some { size := 8, used := true, next := some 32 } ∧
      lookup hf.mem 32 = some { size := 32, used := false, next := none } ∧
      32 ∉ hf.free_list :=
  ⟨_, rfl, rfl, rfl, rfl, by decide⟩

/-- Claim C4 counterexample: for a free block of size 24 and a request
of 16, canSplit answers true although the block does not have room for
the carved part plus a remainder header (canSplitSpec, the condition the
claim states, is false), and split indeed produces a remainder block
whose size field has underflowed to 2^64 - 16. -/
theorem canSplit_spec_counterexample :
    canSplit 24 16 = true ∧ canSplitSpec 24 16 = false ∧ 24 < allocSize 16 ∧
    (∃ h4, split heapC4 0 16 = some h4 ∧
      lookup h4.mem (0 + allocSize 16) =
        some { size := W - 16, used := false, next := none }) :=
  ⟨by decide, by decide, by decide, _, rfl, rfl⟩

/-- Claim C4 (amended): in the ranges free of integer-conversion
wraparound, canSplit(block, size) is true iff block.size >= size +
wordSize, i.e. iff allocSize(block.size) - size >= sizeof(Block); this
is weaker than requiring room for a remainder header, so split can
underflow (see the counterexample). -/
theorem canSplit_iff_code (b s : Nat) (hs : s ≤ b) (hb : b < 2 ^ 31 - 24) :
    canSplit b s = true ↔ s + wordSize ≤ b := by
  have h1 : allocSize b = b + 24 := by
    simp only [allocSize, sizeofBlock, wordSize, W]
    omega
  have h2 : sub64 (b + 24) s = b + 24 - s := by
    simp only [sub64, W]
    omega
  have h3 : toInt32 (b + 24 - s) = ((b + 24 - s : Nat) : Int) := by
    simp only [toInt32]
    rw [if_pos (by omega), Nat.mod_eq_of_lt (by omega)]
  simp only [canSplit, h1, h2, h3, sizeofBlock, wordSize, decide_eq_true_eq]
  omega

/-- Witness for the amended claim C4 at block size 24, request 16. -/
theorem canSplit_iff_code_witness :
    16 ≤ 24 ∧ (canSplit 24 16 = true ↔ 16 + wordSize ≤ 24) :=
  ⟨by decide, canSplit_iff_code 24 16 (by decide) (by decide)⟩

/-- Claim C9 counterexample: align is computed in size_t arithmetic, so
at x = 2^64 - 1 the addition of wordSize - 1 wraps and align x = 0 < x;
the claim that align x >= x for every x fails on the code. -/
theorem align_overflow_counterexample :
    align (2 ^ 64 - 1) = 0 ∧ ¬(2 ^ 64 - 1 ≤ align (2 ^ 64 - 1)) := by
  constructor
  · decide
  · decide

/-- Claim C9 (amended): align is idempotent at every input and
align 0 = 0; whenever x + wordSize - 1 does not wrap at 2^64, align x is
the least multiple of the machine word size that is at least x. -/
theorem align_props (x : Nat) :
    align (align x) = align x ∧ align 0 = 0 ∧
    (x + wordSize - 1 < W →
      x ≤ align x ∧ ∀ m, wordSize ∣ m → x ≤ m → align x ≤ m) := by
  refine ⟨?_, by decide, fun hx => ⟨?_, ?_⟩⟩
  · simp only [align, wordSize, W]
    omega
  · simp only [wordSize, W] at hx
    simp only [align, wordSize, W]
    omega
  · intro m hm hxm
    obtain ⟨k, rfl⟩ := hm
    simp only [wordSize, W] at hx hxm
    simp only [align, wordSize, W]
    omega

/-- Witness for the amended claim C9 at x = 5. -/
theorem align_props_witness : 5 ≤ align 5 ∧ align (align 5) = align 5 :=
  ⟨((align_props 5).2.2 (by decide)).1, (align_props 5).1⟩

/-- Helper: bestFit misses outright when its scan loop never returns. -/
theorem bestFit_of_bfLoop_none (h : Heap) (s fuel : Nat)
    (hl : bfLoop h.mem h.heapStart none s fuel = none) : bestFit h s fuel = none := by
  unfold bestFit
  rw [hl]
  rfl

/-- Helper: alloc crashes or diverges when findBlock does. -/
theorem alloc_of_findBlock_none (h : Heap) (size fuel : Nat)
    (hf : findBlock h (align size) fuel = none) : alloc h size fuel = none := by
  unfold alloc
  rw [hf]
  rfl

/-- Claim C5 (code defect): on a chain holding two free fitting blocks
of equal size, the bestFit scan reaches the second one and then neither
loop branch advances the cursor (the block is free, fits, and is not
strictly smaller than the stored best), so the scan never terminates: no
amount of fuel makes bestFit, or an alloc through it, return. -/
theorem bestFit_diverges :
    ∀ fuel, bestFit heapC5 8 fuel = none ∧ alloc heapC5 8 fuel = none := by
  have aux : ∀ f, bfLoop heapC5.mem (some 100) (some 0) 8 f = none := by
    intro f
    induction f with
    | zero => rfl
    | succ g ih => exact ih
  have hloop : ∀ fuel, bfLoop heapC5.mem heapC5.heapStart none 8 fuel = none := by
    intro fuel
    match fuel with
    | 0 => rfl
    | f + 1 => exact aux f
  intro fuel
  have hb : bestFit heapC5 8 fuel = none := bestFit_of_bfLoop_none _ _ _ (hloop fuel)
  exact ⟨hb, alloc_of_findBlock_none _ _ _ hb⟩

/-- Helper: the segregatedTraverse iteration restores heapStart on every
round, so a completed traversal leaves it at its original value. -/
theorem segTravGo_heapStart (bs : List (Option Nat)) :
    ∀ (h h' : Heap) (out : List (Nat × Block)) (fuel : Nat),
      segTravGo h bs fuel = some (h', out) → h'.heapStart = h.heapStart := by
  induction bs with
  | nil =>
    intro h h' out fuel hgo
    simp only [segTravGo] at hgo
    injection hgo with hpair
    injection hpair with hh hout
    rw [← hh]
  | cons b rest ih =>
    intro h h' out fuel hgo
    simp only [segTravGo] at hgo
    split at hgo
    · exact Option.noConfusion hgo
    · split at hgo
      · exact Option.noConfusion hgo
      · next h3 out2 heq =>
          injection hgo with hpair
          injection hpair with hh hout
          rw [← hh]
          exact ih _ h3 out2 fuel heq

/-- Claim C10: segregatedFit and segregatedTraverse both temporarily
redirect heapStart to a bucket chain and restore it before returning, so
any value they return leaves heapStart at its pre-call value. -/
theorem segregated_heapStart_restored (h h1 h2 : Heap) (size fuel : Nat)
    (r : Option Nat) (out : List (Nat × Block)) :
    (segregatedFit h size fuel = some (h1, r) → h1.heapStart = h.heapStart) ∧
    (segregatedTraverse h fuel = some (h2, out) → h2.heapStart = h.heapStart) := by
  constructor
  · intro hf
    unfold segregatedFit at hf
    cases hbk : bucketOf size with
    | none => rw [hbk] at hf; exact Option.noConfusion hf
    | some bkt =>
      rw [hbk] at hf
      simp only [segregatedFitGo] at hf
      rw [Option.map_eq_some'] at hf
      obtain ⟨p, hp, hfp⟩ := hf
      obtain ⟨ph, pr⟩ := p
      dsimp only at hfp
      rw [Prod.mk.injEq] at hfp
      obtain ⟨hh, hr⟩ := hfp
      rw [← hh]
  · intro ht
    exact segTravGo_heapStart _ _ _ _ _ ht

/-- Helper: a chain walk that completes within some fuel completes with
the same result at any larger fuel. -/
theorem chain_mono (m : List (Nat × Block)) :
    ∀ (f g : Nat) (o : Option Nat) (L : List Nat),
      chain m o f = some L → f ≤ g → chain m o g = some L := by
  intro f
  induction f with
  | zero =>
    intro g o L hc hfg
    cases o with
    | none =>
      simp only [chain] at hc ⊢
      exact hc
    | some a =>
      simp only [chain] at hc
      exact Option.noConfusion hc
  | succ f ih =>
    intro g o L hc hfg
    cases o with
    | none =>
      simp only [chain] at hc ⊢
      exact hc
    | some a =>
      rcases g with _ | g0
      · exact absurd hfg (by omega)
      · simp only [chain] at hc ⊢
        rcases hl : lookup m a with _ | blk
        · rw [hl] at hc
          exact Option.noConfusion hc
        · rw [hl] at hc
          rw [Option.some_bind] at hc ⊢
          rw [Option.map_eq_some'] at hc ⊢
          obtain ⟨L0, hc0, hL⟩ := hc
          exact ⟨L0, ih g0 blk.next L0 hc0 (by omega), hL⟩

/-- Helper: a chain walk is unchanged by edits at an address it never
visits. -/
theorem chain_agree (m m' : List (Nat × Block)) (B : Nat)
    (hag : ∀ x, x ≠ B → lookup m' x = lookup m x) :
    ∀ (f : Nat) (o : Option Nat) (L : List Nat),
      chain m o f = some L → B ∉ L → chain m' o f = some L := by
  intro f
  induction f with
  | zero =>
    intro o L hc hBL
    cases o with
    | none =>
      simp only [chain] at hc ⊢
      exact hc
    | some a =>
      simp only [chain] at hc
      exact Option.noConfusion hc
  | succ f ih =>
    intro o L hc hBL
    cases o with
    | none =>
      simp only [chain] at hc ⊢
      exact hc
    | some a =>
      simp only [chain] at hc ⊢
      rcases hl : lookup m a with _ | blk
      · rw [hl] at hc
        exact Option.noConfusion hc
      · rw [hl] at hc
        rw [Option.some_bind, Option.map_eq_some'] at hc
        obtain ⟨L0, hc0, hL⟩ := hc
        have haB : a ≠ B := by
          intro he
          apply hBL
          rw [← hL, ← he]
          exact List.mem_cons_self a L0
        rw [hag a haB, hl, Option.some_bind, Option.map_eq_some']
        refine ⟨L0, ih blk.next L0 hc0 ?_, hL⟩
        intro hBL0
        apply hBL
        rw [← hL]
        exact List.mem_cons_of_mem a hBL0

/-- Helper: when a completed chain walk visits B, it also visits the
block that B links to. -/
theorem chain_next_mem (m : List (Nat × Block)) (B S : Nat) (blkB : Block)
    (hB : lookup m B = some blkB) (hnext : blkB.next = some S) :
    ∀ (f : Nat) (o : Option Nat) (L : List Nat),
      chain m o f = some L → B ∈ L → S ∈ L := by
  intro f
  induction f with
  | zero =>
    intro o L hc hBin
    cases o with
    | none =>
      simp only [chain] at hc
      rw [← Option.some.inj hc] at hBin
      exact absurd hBin (List.not_mem_nil B)
    | some a =>
      simp only [chain] at hc
      exact Option.noConfusion hc
  | succ f ih =>
    intro o L hc hBin
    cases o with
    | none =>
      simp only [chain] at hc
      rw [← Option.some.inj hc] at hBin
      exact absurd hBin (List.not_mem_nil B)
    | some a =>
      simp only [chain] at hc
      rcases hl : lookup m a with _ | blk
      · rw [hl] at hc
        exact Option.noConfusion hc
      · rw [hl] at hc
        rw [Option.some_bind, Option.map_eq_some'] at hc
        obtain ⟨L0, hc0, hL⟩ := hc
        by_cases haB : a = B
        · subst haB
          rw [hB, Option.some.injEq] at hl
          rw [← hl, hnext] at hc0
          rcases f with _ | f1
          · simp only [chain] at hc0
            exact Option.noConfusion hc0
          · simp only [chain] at hc0
            rcases hlS : lookup m S with _ | blkS0
            · rw [hlS] at hc0
              exact Option.noConfusion hc0
            · rw [hlS] at hc0
              rw [Option.some_bind, Option.map_eq_some'] at hc0
              obtain ⟨L1, hc1, hL1⟩ := hc0
              rw [← hL, ← hL1]
              exact List.mem_cons_of_mem a (List.mem_cons_self S L1)
        · have hBin0 : B ∈ L0 := by
            rw [← hL] at hBin
            rcases List.mem_cons.mp hBin with he | hm0
            · exact absurd he.symm haB
            · exact hm0
          rw [← hL]
          exact List.mem_cons_of_mem a (ih blk.next L0 hc0 hBin0)

/-- Helper: redirecting the next pointer of B past its successor S
removes exactly S from the walk of a duplicate-free chain through B. -/
theorem chain_erase (m m' : List (Nat × Block)) (B S : Nat)
    (blkB blkS blkB' : Block)
    (hB : lookup m B = some blkB) (hnext : blkB.next = some S)
    (hS : lookup m S = some blkS)
    (hB' : lookup m' B = some blkB') (hnext' : blkB'.next = blkS.next)
    (hag : ∀ x, x ≠ B → lookup m' x = lookup m x) :
    ∀ (f : Nat) (o : Option Nat) (L : List Nat),
      chain m o f = some L → L.Nodup → B ∈ L → chain m' o f = some (L.erase S) := by
  intro f
  induction f with
  | zero =>
    intro o L hc hnd hBin
    cases o with
    | none =>
      simp only [chain] at hc
      rw [← Option.some.inj hc] at hBin
      exact absurd hBin (List.not_mem_nil B)
    | some a =>
      simp only [chain] at hc
      exact Option.noConfusion hc
  | succ f ih =>
    intro o L hc hnd hBin
    cases o with
    | none =>
      simp only [chain] at hc
      rw [← Option.some.inj hc] at hBin
      exact absurd hBin (List.not_mem_nil B)
    | some a =>
      simp only [chain] at hc ⊢
      rcases hl : lookup m a with _ | blk
      · rw [hl] at hc
        exact Option.noConfusion hc
      · rw [hl] at hc
        rw [Option.some_bind, Option.map_eq_some'] at hc
        obtain ⟨L0, hc0, hL⟩ := hc
        have hand : a ∉ L0 ∧ L0.Nodup := by
          rw [← hL] at hnd
          exact List.nodup_cons.mp hnd
        by_cases haB : a = B
        · subst haB
          rw [hB, Option.some.injEq] at hl
          rw [← hl, hnext] at hc0
          rcases f with _ | f1
          · simp only [chain] at hc0
            exact Option.noConfusion hc0
          · simp only [chain] at hc0
            rcases hlS : lookup m S with _ | blkS0
            · rw [hlS] at hc0
              exact Option.noConfusion hc0
            · rw [hlS] at hc0
              rw [Option.some_bind, Option.map_eq_some'] at hc0
              obtain ⟨L1, hc1, hL1⟩ := hc0
              rw [hS, Option.some.injEq] at hlS
              have haL1 : a ∉ L1 := by
                intro hmem
                apply hand.1
                rw [← hL1]
                exact List.mem_cons_of_mem S hmem
              have haS : a ≠ S := by
                intro he
                apply hand.1
                rw [← hL1, he]
                exact List.mem_cons_self S L1
              have hch1 : chain m blkS0.next (f1 + 1) = some L1 :=
                chain_mono m f1 (f1 + 1) blkS0.next L1 hc1 (by omega)
              have hch2 : chain m' blkS0.next (f1 + 1) = some L1 :=
                chain_agree m m' a hag (f1 + 1) blkS0.next L1 hch1 haL1
              rw [hB', Option.some_bind, hnext', hlS, hch2]
              rw [Option.map_some', Option.some.injEq, ← hL, ← hL1]
              rw [List.erase_cons_tail (by simp [haS])]
              rw [List.erase_cons_head]
        · have hBin0 : B ∈ L0 := by
            rw [← hL] at hBin
            rcases List.mem_cons.mp hBin with he | hm0
            · exact absurd he.symm haB
            · exact hm0
          have hSL0 : S ∈ L0 := chain_next_mem m B S blkB hB hnext f blk.next L0 hc0 hBin0
          have haS : a ≠ S := fun he => hand.1 (he ▸ hSL0)
          rw [hag a haB, hl, Option.some_bind]
          rw [ih blk.next L0 hc0 hand.2 hBin0]
          rw [Option.map_some', Option.some.injEq, ← hL]
          rw [List.erase_cons_tail (by simp [haS])]

/-- Helper: reading back the address just written. -/
theorem lookup_update_self (m : List (Nat × Block)) (a : Nat) (b : Block) :
    lookup (update m a b) a = some b := by
  induction m with
  | nil => simp [update, lookup]
  | cons kv rest ih =>
    obtain ⟨k, v⟩ := kv
    by_cases hk : k = a
    · subst hk
      simp [update, lookup]
    · simp only [update, lookup, if_neg hk]
      exact ih

/-- Helper: writing one address leaves every other address unchanged. -/
theorem lookup_update_ne (m : List (Nat × Block)) (a c : Nat) (b : Block)
    (hne : c ≠ a) : lookup (update m a b) c = lookup m c := by
  induction m with
  | nil =>
    simp only [update, lookup]
    rw [if_neg (fun h => hne h.symm)]
  | cons kv rest ih =>
    obtain ⟨k, v⟩ := kv
    simp only [update]
    by_cases hk : k = a
    · rw [if_pos hk]
      simp only [lookup]
      rw [if_neg (fun (h : a = c) => hne h.symm),
        if_neg (fun (h : k = c) => hne (hk.symm.trans h).symm)]
    · rw [if_neg hk]
      simp only [lookup]
      by_cases hkc : k = c
      · rw [if_pos hkc, if_pos hkc]
      · rw [if_neg hkc, if_neg hkc]
        exact ih

/-- Helper: after a link write t->next := some B on top of a memory in
which address B holds header v, the header at B still carries the size
and used flag of v (only its next field may differ, when t = B). -/
theorem lookup_write_next (m : List (Nat × Block)) (B t : Nat) (v tb : Block)
    (hB : lookup m B = some v) (hlk : lookup m t = some tb) :
    ∃ nx, lookup (update m t { tb with next := some B }) B =
      some { v with next := nx } := by
  by_cases htB : t = B
  · subst htB
    rw [hB, Option.some.injEq] at hlk
    subst hlk
    exact ⟨some t, lookup_update_self _ _ _⟩
  · refine ⟨v.next, ?_⟩
    rw [lookup_update_ne _ t B _ (fun he => htB he.symm)]
    rw [hB]

/-- Helper: split changes only mem and free_list. -/
theorem split_frame (h : Heap) (B s : Nat) (h1 : Heap)
    (hs : split h B s = some h1) : framesEq h h1 := by
  unfold split at hs
  cases hb : lookup h.mem B with
  | none => rw [hb] at hs; exact Option.noConfusion hs
  | some blk =>
    rw [hb] at hs
    dsimp only at hs
    by_cases hm : h.searchMode = SearchMode.FreeList
    · rw [if_pos hm] at hs
      rw [Option.some.injEq] at hs
      rw [← hs]
      exact ⟨rfl, rfl, rfl, rfl, rfl, rfl, rfl, rfl⟩
    · rw [if_neg hm] at hs
      rw [Option.some.injEq] at hs
      rw [← hs]
      exact ⟨rfl, rfl, rfl, rfl, rfl, rfl, rfl, rfl⟩

/-- Helper: a returned listAllocate gives back the same block address,
whose header now carries the requested size and the used flag, and
changes no allocator-state component other than mem and free_list. -/
theorem listAllocate_spec (h : Heap) (B s : Nat) (h' : Heap) (r : Nat)
    (hla : listAllocate h B s = some (h', r)) :
    r = B ∧ (∃ nx, lookup h'.mem B = some { size := s, used := true, next := nx }) ∧
    framesEq h h' := by
  unfold listAllocate at hla
  cases hb : lookup h.mem B with
  | none => rw [hb] at hla; exact Option.noConfusion hla
  | some blk =>
    rw [hb] at hla
    dsimp only at hla
    by_cases hc : h.searchMode ≠ SearchMode.SegregatedList ∧ canSplit blk.size s = true
    · rw [if_pos hc] at hla
      cases hsp : split h B s with
      | none => rw [hsp] at hla; exact Option.noConfusion hla
      | some h1 =>
        rw [hsp] at hla
        dsimp only at hla
        cases hb1 : lookup h1.mem B with
        | none => rw [hb1] at hla; exact Option.noConfusion hla
        | some blk1 =>
          rw [hb1] at hla
          dsimp only at hla
          rw [Option.some.injEq, Prod.mk.injEq] at hla
          obtain ⟨hh, hr⟩ := hla
          have hfr := split_frame h B s h1 hsp
          refine ⟨hr.symm, ⟨blk1.next, ?_⟩, ?_⟩
          · rw [← hh]
            exact lookup_update_self _ _ _
          · rw [← hh]
            exact hfr
    · rw [if_neg hc] at hla
      dsimp only at hla
      cases hb1 : lookup h.mem B with
      | none => rw [hb1] at hla; exact Option.noConfusion hla
      | some blk1 =>
        rw [hb1] at hla
        dsimp only at hla
        rw [Option.some.injEq, Prod.mk.injEq] at hla
        obtain ⟨hh, hr⟩ := hla
        refine ⟨hr.symm, ⟨blk1.next, ?_⟩, ?_⟩
        · rw [← hh]
          exact lookup_update_self _ _ _
        · rw [← hh]
          exact ⟨rfl, rfl, rfl, rfl, rfl, rfl, rfl, rfl⟩

/-- Helper: a block delivered by fitFinish went through listAllocate. -/
theorem fitFinish_found (h : Heap) (s : Nat) (o : Option (Option Nat)) (h1 : Heap) (a : Nat)
    (hf : fitFinish h s o = some (h1, some a)) :
    ∃ nx, lookup h1.mem a = some { size := s, used := true, next := nx } := by
  rcases o with _ | (_ | b)
  · exact Option.noConfusion hf
  · dsimp only [fitFinish] at hf
    rw [Option.some.injEq, Prod.mk.injEq] at hf
    exact Option.noConfusion hf.2
  · dsimp only [fitFinish] at hf
    rw [Option.map_eq_some'] at hf
    obtain ⟨⟨ph, pr⟩, hp, hfp⟩ := hf
    dsimp only at hfp
    rw [Prod.mk.injEq] at hfp
    obtain ⟨hh, hr⟩ := hfp
    rw [Option.some.injEq] at hr
    obtain ⟨hrB, ⟨nx, hl⟩, -⟩ := listAllocate_spec h b s ph pr hp
    refine ⟨nx, ?_⟩
    rw [← hh, ← hr, hrB]
    exact hl

/-- Helper: a block delivered by nextFitFinish went through listAllocate
after the cursor moved to it, and listAllocate keeps the cursor. -/
theorem nextFitFinish_found (h0 : Heap) (s : Nat) (o : Option (Option Nat)) (h1 : Heap) (a : Nat)
    (hf : nextFitFinish h0 s o = some (h1, some a)) :
    (∃ nx, lookup h1.mem a = some { size := s, used := true, next := nx }) ∧
    h1.searchStart = some a := by
  rcases o with _ | (_ | b)
  · exact Option.noConfusion hf
  · dsimp only [nextFitFinish] at hf
    rw [Option.some.injEq, Prod.mk.injEq] at hf
    exact Option.noConfusion hf.2
  · dsimp only [nextFitFinish] at hf
    rw [Option.map_eq_some'] at hf
    obtain ⟨⟨ph, pr⟩, hp, hfp⟩ := hf
    dsimp only at hfp
    rw [Prod.mk.injEq] at hfp
    obtain ⟨hh, hr⟩ := hfp
    rw [Option.some.injEq] at hr
    obtain ⟨hrB, ⟨nx, hl⟩, hfr⟩ := listAllocate_spec _ b s ph pr hp
    constructor
    · refine ⟨nx, ?_⟩
      rw [← hh, ← hr, hrB]
      exact hl
    · have hss : ph.searchStart = some b := hfr.2.2.1
      rw [← hh, hss]
      exact congrArg some (hrB.symm.trans hr)

/-- Helper: a block delivered by freeListFinish went through
listAllocate. -/
theorem freeListFinish_found (h : Heap) (s : Nat) (o : Option (Option Nat)) (h1 : Heap) (a : Nat)
    (hf : freeListFinish h s o = some (h1, some a)) :
    ∃ nx, lookup h1.mem a = some { size := s, used := true, next := nx } := by
  rcases o with _ | (_ | b)
  · exact Option.noConfusion hf
  · dsimp only [freeListFinish] at hf
    rw [Option.some.injEq, Prod.mk.injEq] at hf
    exact Option.noConfusion hf.2
  · dsimp only [freeListFinish] at hf
    rw [Option.map_eq_some'] at hf
    obtain ⟨⟨ph, pr⟩, hp, hfp⟩ := hf
    dsimp only at hfp
    rw [Prod.mk.injEq] at hfp
    obtain ⟨hh, hr⟩ := hfp
    rw [Option.some.injEq] at hr
    obtain ⟨hrB, ⟨nx, hl⟩, -⟩ := listAllocate_spec _ b s ph pr hp
    refine ⟨nx, ?_⟩
    rw [← hh, ← hr, hrB]
    exact hl

/-- Helper: a found firstFit block carries the requested size, used. -/
theorem firstFit_found (h : Heap) (s fuel : Nat) (h1 : Heap) (a : Nat)
    (hf : firstFit h s fuel = some (h1, some a)) :
    ∃ nx, lookup h1.mem a = some { size := s, used := true, next := nx } := by
  unfold firstFit at hf
  exact fitFinish_found h s _ h1 a hf

/-- Helper: a found bestFit block carries the requested size, used. -/
theorem bestFit_found (h : Heap) (s fuel : Nat) (h1 : Heap) (a : Nat)
    (hf : bestFit h s fuel = some (h1, some a)) :
    ∃ nx, lookup h1.mem a = some { size := s, used := true, next := nx } := by
  unfold bestFit at hf
  exact fitFinish_found h s _ h1 a hf

/-- Helper: a found nextFit block carries the requested size, used. -/
theorem nextFit_found (h : Heap) (s fuel : Nat) (h1 : Heap) (a : Nat)
    (hf : nextFit h s fuel = some (h1, some a)) :
    ∃ nx, lookup h1.mem a = some { size := s, used := true, next := nx } := by
  unfold nextFit at hf
  exact (nextFitFinish_found _ s _ h1 a hf).1

/-- Helper: a found freeList block carries the requested size, used. -/
theorem freeList_found (h : Heap) (s fuel : Nat) (h1 : Heap) (a : Nat)
    (hf : freeList h s fuel = some (h1, some a)) :
    ∃ nx, lookup h1.mem a = some { size := s, used := true, next := nx } := by
  unfold freeList at hf
  exact freeListFinish_found h s _ h1 a hf

/-- Helper: a found segregatedFit block carries the requested size, used. -/
theorem segregatedFit_found (h : Heap) (s fuel : Nat) (h1 : Heap) (a : Nat)
    (hf : segregatedFit h s fuel = some (h1, some a)) :
    ∃ nx, lookup h1.mem a = some { size := s, used := true, next := nx } := by
  unfold segregatedFit at hf
  rcases hbk : bucketOf s with _ | bkt
  · rw [hbk] at hf
    exact Option.noConfusion hf
  · rw [hbk] at hf
    dsimp only [segregatedFitGo] at hf
    rw [Option.map_eq_some'] at hf
    obtain ⟨⟨ph, pr⟩, hp, hfp⟩ := hf
    dsimp only at hfp
    rw [Prod.mk.injEq] at hfp
    obtain ⟨hh, hr⟩ := hfp
    obtain ⟨nx, hl⟩ := firstFit_found _ s fuel ph a (by rw [hr] at hp; exact hp)
    refine ⟨nx, ?_⟩
    rw [← hh]
    exact hl

/-- Helper: any found block, in any mode, carries the requested size and
the used flag. -/
theorem findBlock_found (h : Heap) (s fuel : Nat) (h1 : Heap) (a : Nat)
    (hfb : findBlock h s fuel = some (h1, some a)) :
    ∃ nx, lookup h1.mem a = some { size := s, used := true, next := nx } := by
  unfold findBlock at hfb
  cases hm : h.searchMode with
  | FirstFit => rw [hm] at hfb; exact firstFit_found h s fuel h1 a hfb
  | NextFit => rw [hm] at hfb; exact nextFit_found h s fuel h1 a hfb
  | BestFit => rw [hm] at hfb; exact bestFit_found h s fuel h1 a hfb
  | FreeList => rw [hm] at hfb; exact freeList_found h s fuel h1 a hfb
  | SegregatedList => rw [hm] at hfb; exact segregatedFit_found h s fuel h1 a hfb

/-- Helper: segregated link step keeps the fresh header at B (up to its
next field). -/
theorem allocGrowSegLink_spec (h4 : Heap) (B bkt t : Nat) (v : Block)
    (hB : lookup h4.mem B = some v) (h' : Heap) (p : Nat)
    (hg : allocGrowSegLink h4 B bkt t (lookup h4.mem t) = some (h', p)) :
    ∃ nx, p = B + dataOffset ∧ lookup h'.mem B = some { v with next := nx } := by
  rcases hlk : lookup h4.mem t with _ | tb
  · rw [hlk] at hg
    exact Option.noConfusion hg
  · rw [hlk] at hg
    dsimp only [allocGrowSegLink] at hg
    rw [Option.some.injEq, Prod.mk.injEq] at hg
    obtain ⟨hh, hp⟩ := hg
    obtain ⟨nx, hl⟩ := lookup_write_next h4.mem B t v tb hB hlk
    refine ⟨nx, hp.symm, ?_⟩
    rw [← hh]
    exact hl

/-- Helper: segregated top step keeps the fresh header at B. -/
theorem allocGrowSegTop_spec (h4 : Heap) (B bkt : Nat) (o : Option Nat) (v : Block)
    (hB : lookup h4.mem B = some v) (h' : Heap) (p : Nat)
    (hg : allocGrowSegTop h4 B bkt o = some (h', p)) :
    ∃ nx, p = B + dataOffset ∧ lookup h'.mem B = some { v with next := nx } := by
  rcases o with _ | t
  · dsimp only [allocGrowSegTop] at hg
    rw [Option.some.injEq, Prod.mk.injEq] at hg
    obtain ⟨hh, hp⟩ := hg
    refine ⟨v.next, hp.symm, ?_⟩
    rw [← hh]
    exact hB
  · dsimp only [allocGrowSegTop] at hg
    exact allocGrowSegLink_spec h4 B bkt t v hB h' p hg

/-- Helper: segregated growth keeps the fresh header at B. -/
theorem allocGrowSeg_spec (h3 : Heap) (B : Nat) (o : Option Nat) (v : Block)
    (hB : lookup h3.mem B = some v) (h' : Heap) (p : Nat)
    (hg : allocGrowSeg h3 B o = some (h', p)) :
    ∃ nx, p = B + dataOffset ∧ lookup h'.mem B = some { v with next := nx } := by
  rcases o with _ | bkt
  · exact Option.noConfusion hg
  · dsimp only [allocGrowSeg] at hg
    by_cases hbl : h3.segregatedLists.getD bkt none = none
    · rw [if_pos hbl] at hg
      exact allocGrowSegTop_spec
        { h3 with segregatedLists := h3.segregatedLists.set bkt (some B) } B bkt _ v hB h' p hg
    · rw [if_neg hbl] at hg
      exact allocGrowSegTop_spec _ B bkt _ v hB h' p hg

/-- Helper: main-chain link step keeps the fresh header at B. -/
theorem allocGrowMainLink_spec (h4 : Heap) (B t : Nat) (v : Block)
    (hB : lookup h4.mem B = some v) (h' : Heap) (p : Nat)
    (hg : allocGrowMainLink h4 B t (lookup h4.mem t) = some (h', p)) :
    ∃ nx, p = B + dataOffset ∧ lookup h'.mem B = some { v with next := nx } := by
  rcases hlk : lookup h4.mem t with _ | tb
  · rw [hlk] at hg
    exact Option.noConfusion hg
  · rw [hlk] at hg
    dsimp only [allocGrowMainLink] at hg
    rw [Option.some.injEq, Prod.mk.injEq] at hg
    obtain ⟨hh, hp⟩ := hg
    obtain ⟨nx, hl⟩ := lookup_write_next h4.mem B t v tb hB hlk
    refine ⟨nx, hp.symm, ?_⟩
    rw [← hh]
    exact hl

/-- Helper: main-chain top step keeps the fresh header at B. -/
theorem allocGrowMainTop_spec (h4 : Heap) (B : Nat) (o : Option Nat) (v : Block)
    (hB : lookup h4.mem B = some v) (h' : Heap) (p : Nat)
    (hg : allocGrowMainTop h4 B o = some (h', p)) :
    ∃ nx, p = B + dataOffset ∧ lookup h'.mem B = some { v with next := nx } := by
  rcases o with _ | t
  · dsimp only [allocGrowMainTop] at hg
    rw [Option.some.injEq, Prod.mk.injEq] at hg
    obtain ⟨hh, hp⟩ := hg
    refine ⟨v.next, hp.symm, ?_⟩
    rw [← hh]
    exact hB
  · dsimp only [allocGrowMainTop] at hg
    exact allocGrowMainLink_spec h4 B t v hB h' p hg

/-- Helper: main-chain growth keeps the fresh header at B. -/
theorem allocGrowMain_spec (h3 : Heap) (B : Nat) (v : Block)
    (hB : lookup h3.mem B = some v) (h' : Heap) (p : Nat)
    (hg : allocGrowMain h3 B = some (h', p)) :
    ∃ nx, p = B + dataOffset ∧ lookup h'.mem B = some { v with next := nx } := by
  unfold allocGrowMain at hg
  dsimp only at hg
  by_cases hhs : h3.heapStart = none
  · rw [if_pos hhs] at hg
    exact allocGrowMainTop_spec { h3 with heapStart := some B } B _ v hB h' p hg
  · rw [if_neg hhs] at hg
    exact allocGrowMainTop_spec _ B _ v hB h' p hg

/-- Helper: a successful growth path returns the payload handle of a
fresh block whose header is used with exactly the requested size. -/
theorem allocGrow_spec (h1 : Heap) (s : Nat) (h' : Heap) (p : Nat)
    (hg : allocGrow h1 s = some (h', p)) :
    ∃ B blk, p = B + dataOffset ∧ lookup h'.mem B = some blk ∧
      blk.used = true ∧ blk.size = s := by
  unfold allocGrow at hg
  rcases hro : requestFromOS h1 s with _ | ⟨h2, B⟩
  · rw [hro] at hg
    exact Option.noConfusion hg
  · rw [hro] at hg
    dsimp only [allocGrowGo] at hg
    have hB : lookup (update h2.mem B { size := s, used := true, next := none }) B
        = some { size := s, used := true, next := none } := lookup_update_self _ _ _
    by_cases hsm : h2.searchMode = SearchMode.SegregatedList
    · rw [if_pos hsm] at hg
      obtain ⟨nx, hp, hl⟩ := allocGrowSeg_spec _ B _ _ hB h' p hg
      exact ⟨B, _, hp, hl, rfl, rfl⟩
    · rw [if_neg hsm] at hg
      obtain ⟨nx, hp, hl⟩ := allocGrowMain_spec _ B _ hB h' p hg
      exact ⟨B, _, hp, hl, rfl, rfl⟩

/-- Claim C7: in every mode, a successful alloc returns a payload handle
whose header records at least the aligned request (in fact exactly it)
and the used flag, whether the block came from the placement strategy or
from fresh backing-store growth. -/
theorem alloc_spec (h : Heap) (size fuel : Nat) (h' : Heap) (p : Nat)
    (halloc : alloc h size fuel = some (h', p)) :
    ∃ blk, lookup h'.mem (getHeader p) = some blk ∧ blk.used = true ∧
      align size ≤ blk.size := by
  unfold alloc at halloc
  rcases hfb : findBlock h (align size) fuel with _ | ⟨h1, o⟩
  · rw [hfb] at halloc
    exact Option.noConfusion halloc
  · rw [hfb] at halloc
    rcases o with _ | a
    · dsimp only [allocFinish] at halloc
      obtain ⟨B, blk, hpB, hl, hu, hs⟩ := allocGrow_spec h1 (align size) h' p halloc
      refine ⟨blk, ?_, hu, le_of_eq hs.symm⟩
      rw [hpB]
      have hB : getHeader (B + dataOffset) = B := by
        unfold getHeader
        omega
      rw [hB]
      exact hl
    · dsimp only [allocFinish] at halloc
      rw [Option.some.injEq, Prod.mk.injEq] at halloc
      obtain ⟨hh, hp⟩ := halloc
      obtain ⟨nx, hl⟩ := findBlock_found h (align size) fuel h1 a hfb
      refine ⟨{ size := align size, used := true, next := nx }, ?_, rfl, le_refl _⟩
      rw [← hh, ← hp]
      have hB : getHeader (a + dataOffset) = a := by
        unfold getHeader
        omega
      rw [hB]
      exact hl

/-- Witness for claim C7: alloc of 3 bytes on a fresh first-fit heap
grows a block at address 0 and returns handle 24, whose header is used
with size align 3 = 8. -/
theorem alloc_spec_witness :
    ∃ h' p, alloc heapC7 3 5 = some (h', p) ∧
      ∃ blk, lookup h'.mem (getHeader p) = some blk ∧ blk.used = true ∧
        align 3 ≤ blk.size := by
  refine ⟨_, 24, rfl, ?_⟩
  exact alloc_spec heapC7 3 5 _ 24 rfl

/-- Helper: a successful requestFromOS hands back the old break as the
block address and changes only brk. -/
theorem requestFromOS_spec (h1 : Heap) (s0 : Nat) (h2 : Heap) (B : Nat)
    (hro : requestFromOS h1 s0 = some (h2, B)) :
    B = h1.brk ∧ h2 = { h1 with brk := h1.brk + allocSize s0 } := by
  unfold requestFromOS at hro
  by_cases hos : h1.brk + allocSize s0 ≤ h1.osLimit
  · rw [if_pos hos] at hro
    rw [Option.some.injEq, Prod.mk.injEq] at hro
    exact ⟨hro.2.symm, hro.1.symm⟩
  · rw [if_neg hos] at hro
    exact Option.noConfusion hro

/-- Helper: a completed nextFit miss returns the entry state, whose only
change is the cursor assignment made when it was unset. -/
theorem nextFit_miss (h : Heap) (s fuel : Nat) (h1 : Heap)
    (hnf : nextFit h s fuel = some (h1, none)) :
    h1 = { h with
      searchStart := if h.searchStart = none then h.heapStart else h.searchStart } := by
  unfold nextFit at hnf
  dsimp only at hnf
  rcases ho : nfSearch h.mem h.heapStart
      (if h.searchStart = none then h.heapStart else h.searchStart)
      (if h.searchStart = none then h.heapStart else h.searchStart) s fuel with _ | (_ | b)
  · rw [ho] at hnf
    exact Option.noConfusion hnf
  · rw [ho] at hnf
    dsimp only [nextFitFinish] at hnf
    rw [Option.some.injEq, Prod.mk.injEq] at hnf
    exact hnf.1.symm
  · rw [ho] at hnf
    dsimp only [nextFitFinish] at hnf
    rw [Option.map_eq_some'] at hnf
    obtain ⟨⟨ph, pr⟩, hp, hfp⟩ := hnf
    dsimp only at hfp
    rw [Prod.mk.injEq] at hfp
    exact Option.noConfusion hfp.2

/-- Claim C8: after a found nextFit the cursor equals the allocated
block; a completed full-circle miss leaves the cursor unchanged, except
that an unset cursor has become start-of-chain; and when the scan
misses, a successful alloc is satisfied by growing the backing store,
its handle sitting at the old program break. -/
theorem nextFit_cursor_spec (h : Heap) (s fuel : Nat) :
    (∀ h' a, nextFit h s fuel = some (h', some a) → h'.searchStart = some a) ∧
    (∀ h', nextFit h s fuel = some (h', none) →
      h'.searchStart = (if h.searchStart = none then h.heapStart else h.searchStart)) ∧
    (∀ h1 h' p, h.searchMode = SearchMode.NextFit →
      findBlock h (align s) fuel = some (h1, none) →
      alloc h s fuel = some (h', p) → p = h.brk + dataOffset) := by
  refine ⟨?_, ?_, ?_⟩
  · intro h' a hnf
    unfold nextFit at hnf
    exact (nextFitFinish_found _ s _ h' a hnf).2
  · intro h' hnf
    rw [nextFit_miss h s fuel h' hnf]
  · intro h1 h' p hm hfb hal
    have hm1 : h1 = { h with
        searchStart := if h.searchStart = none then h.heapStart else h.searchStart } := by
      apply nextFit_miss h (align s) fuel h1
      unfold findBlock at hfb
      rw [hm] at hfb
      exact hfb
    unfold alloc at hal
    rw [hfb] at hal
    dsimp only [allocFinish] at hal
    unfold allocGrow at hal
    rcases hro : requestFromOS h1 (align s) with _ | ⟨h2, B⟩
    · rw [hro] at hal
      exact Option.noConfusion hal
    · rw [hro] at hal
      dsimp only [allocGrowGo] at hal
      obtain ⟨hB, hh2⟩ := requestFromOS_spec h1 (align s) h2 B hro
      have hsm2 : h2.searchMode = SearchMode.NextFit := by
        rw [hh2, hm1]
        exact hm
      have hnseg : ¬ (h2.searchMode = SearchMode.SegregatedList) := by
        rw [hsm2]
        exact fun hc => SearchMode.noConfusion hc
      rw [if_neg hnseg] at hal
      have hBmem : lookup (update h2.mem B { size := align s, used := true, next := none }) B
          = some { size := align s, used := true, next := none } := lookup_update_self _ _ _
      obtain ⟨nx, hp, -⟩ := allocGrowMain_spec _ B _ hBmem h' p hal
      rw [hp, hB, hm1]

/-- Witness for claim C8: on a next-fit heap with one free block of size
32 at address 0, a request of 8 finds it and the cursor becomes 0. -/
theorem nextFit_cursor_witness :
    ∃ h', nextFit heapC8 8 5 = some (h', some 0) ∧ h'.searchStart = some 0 := by
  refine ⟨_, rfl, ?_⟩
  exact (nextFit_cursor_spec heapC8 8 5).1 _ 0 rfl

/-- Helper: computation of free on a block whose successor is free, in
any non-segregated mode: coalesce absorbs the successor into B, then the
merged block is marked unused, and in FreeList mode B is pushed onto
free_list. -/
theorem free_coalesce_eq (h : Heap) (B S : Nat) (blkB blkS : Block)
    (hmode : h.searchMode ≠ SearchMode.SegregatedList)
    (hB : lookup h.mem B = some blkB)
    (hnext : blkB.next = some S)
    (hS : lookup h.mem S = some blkS)
    (hSfree : blkS.used = false) :
    free h (B + dataOffset) =
      some { h with
        top := if h.top = some S then some B else h.top,
        mem := update
          (update h.mem B
            { blkB with size := (blkB.size + blkS.size) % W, next := blkS.next }) B
          { size := (blkB.size + blkS.size) % W, used := false, next := blkS.next },
        free_list := if h.searchMode = SearchMode.FreeList
                     then h.free_list ++ [B] else h.free_list } := by
  have hgh : getHeader (B + dataOffset) = B := by
    unfold getHeader
    omega
  have hcc : canCoalesce h.mem blkB = some true := by
    unfold canCoalesce
    rw [hnext]
    dsimp only
    rw [hS, Option.map_some', hSfree]
    rfl
  have hco : coalesce h B = some { h with
      top := if h.top = some S then some B else h.top,
      mem := update h.mem B
        { blkB with size := (blkB.size + blkS.size) % W, next := blkS.next } } := by
    unfold coalesce
    rw [hB]
    dsimp only
    rw [hnext]
    dsimp only
    rw [hS]
    dsimp only
    rw [if_neg (by rw [hSfree]; exact Bool.false_ne_true)]
  unfold free
  rw [hgh]
  dsimp only
  rw [hB]
  dsimp only
  rw [if_neg hmode, hcc]
  dsimp only
  rw [hco]
  dsimp only
  rw [lookup_update_self]
  dsimp only
  by_cases hfl : h.searchMode = SearchMode.FreeList
  · simp only [if_pos hfl]
  · simp only [if_neg hfl]

/-- Claim C6: in every mode except segregated, when the chain successor
S of block B exists and is free at the time free(B) is called, the
post-call header at B records the pre-call sum of both sizes, S has
disappeared from chain traversal, and the chain tail has moved back to B
when S was the tail. -/
theorem free_coalesce (h : Heap) (B S : Nat) (blkB blkS : Block)
    (L : List Nat) (fuel : Nat)
    (hmode : h.searchMode ≠ SearchMode.SegregatedList)
    (hB : lookup h.mem B = some blkB)
    (hnext : blkB.next = some S)
    (hS : lookup h.mem S = some blkS)
    (hSfree : blkS.used = false)
    (hchain : chain h.mem h.heapStart fuel = some L)
    (hnodup : L.Nodup)
    (hBin : B ∈ L)
    (hsum : blkB.size + blkS.size < W) :
    ∃ h', free h (B + dataOffset) = some h' ∧
      lookup h'.mem B =
        some { size := blkB.size + blkS.size, used := false, next := blkS.next } ∧
      chain h'.mem h'.heapStart fuel = some (L.erase S) ∧
      S ∉ L.erase S ∧
      h'.top = (if h.top = some S then some B else h.top) ∧
      h'.heapStart = h.heapStart := by
  refine ⟨_, free_coalesce_eq h B S blkB blkS hmode hB hnext hS hSfree, ?_, ?_, ?_, ?_, ?_⟩
  · dsimp only
    rw [lookup_update_self, Option.some.injEq]
    rw [Nat.mod_eq_of_lt hsum]
  · dsimp only
    refine chain_erase h.mem _ B S blkB blkS
      { size := (blkB.size + blkS.size) % W, used := false, next := blkS.next }
      hB hnext hS (lookup_update_self _ _ _) rfl ?_ fuel h.heapStart L hchain hnodup hBin
    intro x hx
    rw [lookup_update_ne _ B x _ hx, lookup_update_ne _ B x _ hx]
  · exact hnodup.not_mem_erase
  · rfl
  · rfl

/-- Witness for claim C6: freeing the used block at 0 whose free
successor at 32 follows it merges the two into one block of size 16 at
address 0, drops 32 from traversal, and moves top back to 0. -/
theorem free_coalesce_witness :
    ∃ h', free heapC6 (0 + dataOffset) = some h' ∧
      lookup h'.mem 0 = some { size := 8 + 8, used := false, next := none } ∧
      chain h'.mem h'.heapStart 3 = some ([0, 32].erase 32) ∧
      32 ∉ [0, 32].erase 32 ∧
      h'.top = (if heapC6.top = some 32 then some 0 else heapC6.top) ∧
      h'.heapStart = heapC6.heapStart :=
  free_coalesce heapC6 0 32 { size := 8, used := true, next := some 32 }
    { size := 8, used := false, next := none } [0, 32] 3
    (by decide) rfl rfl rfl rfl rfl (by decide) (by decide) (by decide)

/-- Witness for claim C10: on a concrete segregated state whose main
chain head is address 7, both operations return with heapStart still 7. -/
theorem segregated_heapStart_witness :
    (∃ ha r, segregatedFit heapC10 8 5 = some (ha, r) ∧
      ha.heapStart = heapC10.heapStart) ∧
    (∃ hb out, segregatedTraverse heapC10 5 = some (hb, out) ∧
      hb.heapStart = heapC10.heapStart) :=
  ⟨⟨heapC10, none, rfl,
    (segregated_heapStart_restored heapC10 heapC10 heapC10 8 5 none []).1 rfl⟩,
   ⟨heapC10, [], rfl,
    (segregated_heapStart_restored heapC10 heapC10 heapC10 8 5 none []).2 rfl⟩⟩

end Alloc
